import Mathlib

/-
  Verification development for the PER-Agent research pipeline.

  The definitions below are a shallow embedding of the pipeline core:
  the literature retrieval and ranking subsystem
  (src/agents/literature_scout.py), the resilience layer
  (src/agents/base_agent.py) and the orchestrator node functions
  (src/core/orchestrator.py).  Python floats are modelled as rationals,
  machine integers as Int/Nat, fallible calls as Except, and the one
  dynamic attribute of the workflow state (state.papers) as an explicit
  field.  External effects (adapter fetches, LLM calls, sleeps) are
  passed in as explicit outcome parameters so that the pure data flow of
  the source is preserved exactly.
-/

namespace PERAgent

attribute [local semireducible] Rat.add Rat.mul Rat.sub Rat.inv

/-! ## String utilities mirroring the Python primitives used by the agent -/

/-- Model of Python str.lower applied characterwise. -/
def pyLower (s : String) : String := String.mk (s.data.map Char.toLower)

/-- Characters matched by the regex class \w (word characters). -/
def isWordCharB (c : Char) : Bool := c.isAlphanum || c = '_'

/-- Characters matched by the regex class \s (whitespace). -/
def isSpaceCharB (c : Char) : Bool := c = ' ' || c = '\t' || c = '\n' || c = '\r'

/-- Model of re.sub with pattern removing every character that is neither
a word character nor whitespace, as in the title normalization of
LiteratureScoutAgent. -/
def stripPunct (s : String) : String :=
  String.mk (s.data.filter (fun c => isWordCharB c || isSpaceCharB c))

/-- Word accumulator for whitespace splitting, carrying the reversed
current word. -/
def wordsGo : List Char → List Char → List String
  | [], cur => if cur.isEmpty then [] else [String.mk cur.reverse]
  | c :: t, cur =>
    if isSpaceCharB c then
      (if cur.isEmpty then [] else [String.mk cur.reverse]) ++ wordsGo t []
    else wordsGo t (c :: cur)

/-- Model of Python str.split with no argument: split on whitespace runs,
discarding empty pieces. -/
def splitWhitespace (s : String) : List String :=
  wordsGo s.data []

/-- Join a word list with single spaces. -/
def joinSpace : List String → String
  | [] => ""
  | [w] => w
  | w :: ws => w ++ " " ++ joinSpace ws

/-- Title normalization of _deduplicate_papers: lower case, strip
punctuation, collapse internal whitespace to single spaces. -/
def normalizeTitle (t : String) : String :=
  joinSpace (splitWhitespace (stripPunct (pyLower t)))

/-- Piece accumulator for separator splitting, carrying the reversed
current piece. -/
def splitSepGo (sep : Char) : List Char → List Char → List String
  | [], cur => [String.mk cur.reverse]
  | c :: t, cur =>
    if c = sep then String.mk cur.reverse :: splitSepGo sep t []
    else splitSepGo sep t (c :: cur)

/-- Model of Python str.split with a one character separator: empty
input gives one empty piece, adjacent separators give empty pieces. -/
def splitSep (sep : Char) (s : String) : List String :=
  splitSepGo sep s.data []

/-- Boolean test that pre is a prefix of s, modelling str.startswith. -/
def pyStartsWith (s pre : String) : Bool :=
  pre.data.isPrefixOf s.data

/-- Model of Python str.strip: drop whitespace from both ends. -/
def pyStrip (s : String) : String :=
  String.mk (((s.data.dropWhile isSpaceCharB).reverse.dropWhile isSpaceCharB).reverse)

/-- Substring test on character lists, modelling the Python operator
testing containment of one string in another. -/
def listContainsSub (hay needle : List Char) : Bool :=
  match hay with
  | [] => needle.isEmpty
  | _ :: t => needle.isPrefixOf hay || listContainsSub t needle

/-- Model of the Python expression testing whether needle occurs inside
hay as a contiguous substring. -/
def pySubstr (needle hay : String) : Bool :=
  listContainsSub hay.data needle.data

/-- Text after the first colon of a line, modelling line.split with a
colon separator and maxsplit one, taking the second piece. -/
def afterFirstColon (s : String) : String :=
  String.mk ((s.data.dropWhile (fun c => c ≠ ':')).drop 1)

/-- Numeral characters matched by the regex run of digits and dots used
in _parse_ranking_results. -/
def isNumChar (c : Char) : Bool := c.isDigit || c = '.'

/-- Model of re.search for the first maximal run of digits and dots;
none when the text holds no such character. -/
def firstNumRun (s : String) : Option String :=
  match (s.data.dropWhile (fun c => !isNumChar c)).takeWhile isNumChar with
  | [] => none
  | run => some (String.mk run)

/-- Value of a digit list read in base ten. -/
def natOfDigits (l : List Char) : Nat :=
  l.foldl (fun n c => 10 * n + (c.toNat - 48)) 0

/-- Model of the Python float constructor restricted to the strings the
regex run can produce: digits with at most one dot and at least one
digit succeed, everything else raises ValueError (none here). -/
def pyFloat (s : String) : Option ℚ :=
  match splitSep '.' s with
  | [a] =>
      if a.data ≠ [] ∧ a.data.all Char.isDigit then some (natOfDigits a.data) else none
  | [a, b] =>
      if (a.data ++ b.data) ≠ [] ∧ (a.data ++ b.data).all Char.isDigit then
        some ((natOfDigits a.data : ℚ) + (natOfDigits b.data : ℚ) / 10 ^ b.data.length)
      else none
  | _ => none

/-- Computable minimum on rationals, modelling the Python builtin. -/
def pyMin (a b : ℚ) : ℚ := if a ≤ b then a else b

/-- Computable maximum on rationals, modelling the Python builtin. -/
def pyMax (a b : ℚ) : ℚ := if a ≤ b then b else a

/-! ## Data model (core/models.py) -/

/-- Paper metadata record from core/models.py, with the publication date
represented by its year (the only component the agent reads) and the
relevance score as a rational. -/
structure Paper where
  title : String
  authors : List String
  abstract : String
  url : String
  arxiv_id : Option String := none
  doi : Option String := none
  publishedYear : Option Int := none
  journal : Option String := none
  citations : Int := 0
  relevance_score : ℚ := 0
  source : String := "unknown"
  keywords : List String := []
deriving DecidableEq

/-- ResearchQuery from core/models.py restricted to the fields the
retrieval stage consumes.  The count bounds are naturals, matching their
use as nonnegative limits. -/
structure ResearchQuery where
  question : String
  max_sources : Nat := 20
  min_sources : Nat := 5
  preferred_years : Option (Int × Int) := none
  keywords : List String := []
  exclude_keywords : List String := []
deriving DecidableEq

/-! ## Deduplication (_deduplicate_papers) -/

/-- The DOI value the dedup loop actually tests: Python truthiness makes
an empty string behave like a missing DOI. -/
def doiKey (p : Paper) : Option String :=
  match p.doi with
  | some d => if d = "" then none else some d
  | none => none

/-- Loop body of _deduplicate_papers: skip a paper whose truthy DOI was
already seen, else skip it when its normalized title was already seen,
else keep it and record its title and truthy DOI. -/
def dedupGo (seenTitles seenDois : List String) : List Paper → List Paper
  | [] => []
  | p :: rest =>
    match doiKey p with
    | some d =>
        if seenDois.contains d then dedupGo seenTitles seenDois rest
        else
          let nt := normalizeTitle p.title
          if seenTitles.contains nt then dedupGo seenTitles seenDois rest
          else p :: dedupGo (nt :: seenTitles) (d :: seenDois) rest
    | none =>
        let nt := normalizeTitle p.title
        if seenTitles.contains nt then dedupGo seenTitles seenDois rest
        else p :: dedupGo (nt :: seenTitles) seenDois rest

/-- Model of LiteratureScoutAgent._deduplicate_papers. -/
def deduplicate_papers (papers : List Paper) : List Paper :=
  dedupGo [] [] papers

/-- Two papers match by DOI when both carry the same truthy DOI. -/
def doiMatchB (p q : Paper) : Bool :=
  match doiKey p, doiKey q with
  | some d, some e => d = e
  | _, _ => false

/-- A later paper duplicates an earlier kept one when they share a
truthy DOI or share a normalized title. -/
def dupMatchB (p q : Paper) : Bool :=
  doiMatchB p q || normalizeTitle p.title = normalizeTitle q.title

/-- Amended specification of deduplication, written from the corrected
wording: walk the list once, keeping a paper exactly when no previously
kept paper matches it by truthy DOI or by normalized title (the title
test applies even when both papers carry distinct DOIs). -/
def dedupAmendedSpec (l : List Paper) : List Paper :=
  l.foldl (fun kept p => if kept.any (fun q => dupMatchB p q) then kept else kept ++ [p]) []

/-- Number of distinct strings in a list not already contained in seen,
counting each first occurrence once. -/
def distinctCount (seen : List String) : List String → Nat
  | [] => 0
  | t :: rest => if seen.contains t then distinctCount seen rest else distinctCount (t :: seen) rest + 1

/-! ## Heuristic scoring and ranking (_rank_papers) -/

/-- Heuristic score of _rank_papers: citation count over one hundred
capped at a half, plus a recency bonus of three tenths for papers dated
2020 or later (one tenth otherwise or without a date), plus a fixed base
of a fifth.  The Python guard coercing a missing citation count to zero
is the identity on the integer field modelled here. -/
def heuristic_score (p : Paper) : ℚ :=
  pyMin ((p.citations : ℚ) / 100) (1 / 2)
    + (match p.publishedYear with
       | some y => if 2020 ≤ y then (3 : ℚ) / 10 else 1 / 10
       | none => (1 : ℚ) / 10)
    + 1 / 5

/-- Insert a paper into a list before the first element whose relevance
score is at most its own.  Used to model the stable descending sort the
Python sorted builtin performs with a score key and reverse order. -/
def insertScoreDesc (p : Paper) : List Paper → List Paper
  | [] => [p]
  | q :: rest =>
    if q.relevance_score ≤ p.relevance_score then p :: q :: rest
    else q :: insertScoreDesc p rest

/-- Stable descending sort by relevance score, modelling the final
sorted call of _rank_papers: equal scores keep their first seen order. -/
def sortScoreDesc : List Paper → List Paper
  | [] => []
  | p :: rest => insertScoreDesc p (sortScoreDesc rest)

/-- Insert a paper into a list before the first element whose heuristic
score is at most its own. -/
def insertHeurDesc (p : Paper) : List Paper → List Paper
  | [] => [p]
  | q :: rest =>
    if heuristic_score q ≤ heuristic_score p then p :: q :: rest
    else q :: insertHeurDesc p rest

/-- Stable descending sort by heuristic score, modelling the candidate
preselection sort of _rank_papers. -/
def sortHeurDesc : List Paper → List Paper
  | [] => []
  | p :: rest => insertHeurDesc p (sortHeurDesc rest)

/-! ## Parsing of LLM ranking output (_parse_ranking_results) -/

/-- One parsed block of the ranking response.  A missing field models
the corresponding key being absent from the Python dict. -/
structure RankEntry where
  score : Option ℚ := none
  physics_concepts : Option (List String) := none
deriving DecidableEq

/-- Score extracted from the text after the colon of a Score line: the
first run of digits and dots is read as a float and clamped into the
unit interval; a missing run or an unreadable run yields the default of
one half. -/
def scoreOfText (st : String) : ℚ :=
  match firstNumRun st with
  | none => 1 / 2
  | some run =>
    match pyFloat run with
    | some v => pyMin (pyMax v 0) 1
    | none => 1 / 2

/-- Line loop of _parse_ranking_results.  A paper header line flushes
the current block when it is nonempty; a Score line stores the clamped
or default score; a concepts line stores the comma split concepts. -/
def parseRankGo : List String → RankEntry → List RankEntry
  | [], cur => if cur = {} then [] else [cur]
  | line :: rest, cur =>
    let l := pyStrip line
    if l = "" then parseRankGo rest cur
    else if pyStartsWith l "Paper ID:" || pyStartsWith l "Paper " then
      (if cur = {} then [] else [cur]) ++ parseRankGo rest {}
    else if pyStartsWith l "Score:" then
      parseRankGo rest { cur with score := some (scoreOfText (pyStrip (afterFirstColon l))) }
    else if pyStartsWith l "Key Physics Concepts:" then
      parseRankGo rest
        { cur with physics_concepts := some ((splitSep ',' (pyStrip (afterFirstColon l))).map pyStrip) }
    else parseRankGo rest cur

/-- Model of _parse_ranking_results: parse the blocks, pad with default
entries of score one half up to the requested count, truncate to it. -/
def parse_ranking_results (rankingText : String) (numPapers : Nat) : List RankEntry :=
  let scores := parseRankGo (splitSep '\n' rankingText) {}
  (scores ++ List.replicate (numPapers - scores.length)
    (RankEntry.mk (some (1 / 2)) (some []))).take numPapers

/-! ## Ranking (_rank_papers) -/

/-- Relevance score each paper ends up with after the LLM path of
_rank_papers: the top candidates by heuristic receive the parsed score
when the parsed entry carries one (else their heuristic score), every
other paper receives its heuristic score.  Mutation of the shared paper
objects is modelled by recomputing the score of each list position. -/
def llmScoredPapers (l : List Paper) (rankingText : String) : List Paper :=
  let cands := (sortHeurDesc l).take (min 6 l.length)
  let scores := parse_ranking_results rankingText cands.length
  l.map (fun p =>
    match cands.indexOf? p with
    | some i =>
      match scores[i]? with
      | some e => { p with relevance_score := e.score.getD (heuristic_score p) }
      | none => { p with relevance_score := heuristic_score p }
    | none => { p with relevance_score := heuristic_score p })

/-- Relevance scores on the fallback path of _rank_papers, taken when
the LLM call raises or times out: every paper gets its heuristic score. -/
def heurScoredPapers (l : List Paper) : List Paper :=
  l.map (fun p => { p with relevance_score := heuristic_score p })

/-- The papers of _rank_papers in first seen order with their final
scores: the outcome parameter is the LLM response text, none modelling a
raised or timed out call. -/
def scoredPapers (l : List Paper) : Option String → List Paper
  | some text => llmScoredPapers l text
  | none => heurScoredPapers l

/-- Model of LiteratureScoutAgent._rank_papers: score the papers from
the LLM response or the heuristic fallback, then sort descending by
final relevance score with the stable sorted builtin. -/
def rank_papers (l : List Paper) (outcome : Option String) : List Paper :=
  if l = [] then [] else sortScoreDesc (scoredPapers l outcome)

/-! ## Filtering (_apply_filters) -/

/-- Filter predicate of the selection loop in _apply_filters: drop low
relevance scores, drop papers dated outside the preferred year range,
drop papers with an excluded keyword inside title plus abstract. -/
def passesFilters (q : ResearchQuery) (p : Paper) : Bool :=
  ((1 : ℚ) / 5 ≤ p.relevance_score)
  && (match q.preferred_years with
      | some (sy, ey) =>
        match p.publishedYear with
        | some y => decide (sy ≤ y) && decide (y ≤ ey)
        | none => true
      | none => true)
  && !(q.exclude_keywords.any (fun kw =>
        pySubstr (pyLower kw) (pyLower (p.title ++ " " ++ p.abstract))))

/-- Selection loop of _apply_filters with the running output length as
counter: a paper passing the filters is appended, and the loop breaks as
soon as the output has reached the maximum source bound. -/
def filterLoop (q : ResearchQuery) : List Paper → Nat → List Paper
  | [], _ => []
  | p :: rest, n =>
    if passesFilters q p then
      p :: (if q.max_sources ≤ n + 1 then [] else filterLoop q rest (n + 1))
    else filterLoop q rest n

/-- Model of LiteratureScoutAgent._apply_filters: run the selection
loop, then underfill from the remaining papers regardless of score when
the result is below the minimum bound and the full list is large
enough. -/
def apply_filters (l : List Paper) (q : ResearchQuery) : List Paper :=
  let filtered := filterLoop q l 0
  if filtered.length < q.min_sources ∧ q.min_sources ≤ l.length then
    filtered ++ (l.filter (fun p => !(filtered.contains p))).take (q.min_sources - filtered.length)
  else filtered

/-! ## Workflow state and orchestrator nodes (core/orchestrator.py) -/

/-- Workflow state from core/models.py restricted to the fields the
retrieval and analysis nodes touch.  The papers field models the
dynamic attribute the scout assigns on the state object; analyzed
documents are abstracted to their titles. -/
structure AgentState where
  query : ResearchQuery
  current_step : String
  literature_results : List Paper := []
  papers : List Paper := []
  analyzed_documents : List String := []
  errors : List String := []
  warnings : List String := []
deriving DecidableEq

/-- Model of LiteratureScoutAgent.process on a valid state: gather the
adapter outcomes (a failed adapter contributes nothing and is only
logged as a warning, not recorded on the state), deduplicate, rank with
the given LLM outcome, filter, and commit the result to the papers
attribute of the state.  The error list of the state is not touched on
this path. -/
def scout_process (adapters : List (Except String (List Paper))) (rankOutcome : Option String)
    (s : AgentState) : AgentState :=
  let all_papers := adapters.foldl
    (fun acc r => match r with | .ok ps => acc ++ ps | .error _ => acc) []
  let unique := deduplicate_papers all_papers
  let ranked := rank_papers unique rankOutcome
  { s with papers := apply_filters ranked s.query }

/-- Model of ResearchOrchestrator._literature_search_node: run the scout
and mark the step complete.  The scout never raises on this path, so the
except branch appending to the error list is not taken. -/
def literature_search_node (adapters : List (Except String (List Paper)))
    (rankOutcome : Option String) (s : AgentState) : AgentState :=
  let s1 := scout_process adapters rankOutcome s
  { s1 with current_step := "literature_search_complete" }

/-- Model of ResearchOrchestrator._document_analysis_node: overwrite the
papers attribute from the literature results field of the state, run the
analyzer on that list, and mark the step complete.  The analyzer itself
is an external collaborator, abstracted as a function on the consumed
paper list. -/
def document_analysis_node (analyze : List Paper → List String) (s : AgentState) : AgentState :=
  let s1 := { s with papers := s.literature_results }
  { s1 with
    analyzed_documents := analyze s1.papers
    current_step := "document_analysis_complete" }

/-! ## Resilience layer (base_agent.py) -/

/-- Outcome of _execute_llm_chain as seen by its caller: a returned
response string, an exception propagated out of the final attempt, or
the implicit none returned when the retry loop runs zero times. -/
inductive LLMOutcome where
  | success (response : String)
  | raised (err : String)
  | noneReturned
deriving DecidableEq

/-- Retry loop of _execute_llm_chain over the per attempt outcomes, with
the remaining attempt budget as fuel.  A failed attempt that is not the
last sleeps two to the attempt index before retrying; the last failed
attempt reraises its error.  The result carries the slept delays. -/
def execChainGo (results : Nat → Except String String) : Nat → Nat → LLMOutcome × List Nat
  | _, 0 => (.noneReturned, [])
  | i, fuel + 1 =>
    match results i with
    | .ok r => (.success r, [])
    | .error e =>
      if fuel = 0 then (.raised e, [])
      else
        let p := execChainGo results (i + 1) fuel
        (p.1, 2 ^ i :: p.2)

/-- Model of BaseAgent._execute_llm_chain: up to maxRetries attempts
against the LLM, exponential backoff between consecutive attempts, the
last failure reraised. -/
def execute_llm_chain (maxRetries : Nat) (results : Nat → Except String String) :
    LLMOutcome × List Nat :=
  execChainGo results 0 maxRetries

/-- Model descriptor of a compute resource configuration. -/
structure ModelCfg where
  name : String
  model_id : String
deriving DecidableEq

/-- Handle on an initialized LLM client. -/
structure LLMClient where
  model_id : String
deriving DecidableEq

/-- Agent configuration slice read by _initialize_llm: the currently
selected model descriptor. -/
structure AgentCfg where
  name : String
  model : ModelCfg
  max_retries : Nat := 3
deriving DecidableEq

/-- Model of BaseAgent._initialize_llm: build the client for the primary
model; on failure fall back to the statically configured alternate when
one exists and record it in the agent configuration; when the alternate
also fails, or none is configured, reraise the original error.  The
constructor is passed in as a fallible function of the descriptor. -/
def initialize_llm (mkLLM : ModelCfg → Except String LLMClient) (cfg : AgentCfg)
    (alternate : Option ModelCfg) : Except String (LLMClient × AgentCfg) :=
  match mkLLM cfg.model with
  | .ok llm => .ok (llm, cfg)
  | .error e =>
    match alternate with
    | some am =>
      match mkLLM am with
      | .ok llm2 => .ok (llm2, { cfg with model := am })
      | .error _ => .error e
    | none => .error e

/-- Paper untouched by the seen sets: its normalized title is unseen and
its truthy DOI, when it has one, is unseen. -/
def FreshP (seenT seenD : List String) (p : Paper) : Prop :=
  seenT.contains (normalizeTitle p.title) = false ∧
    ∀ d, doiKey p = some d → seenD.contains d = false

/-- Two papers that the dedup pass can never identify: distinct
normalized titles and distinct truthy DOIs. -/
def SeparatedP (p q : Paper) : Prop :=
  normalizeTitle q.title ≠ normalizeTitle p.title ∧
    ∀ d, doiKey q = some d → doiKey p ≠ some d

/-- Ordering on final scores used to state that the ranked list descends:
the later paper scores at most the earlier one. -/
def scoreGE (p q : Paper) : Prop := q.relevance_score ≤ p.relevance_score

/-- Recency order on optional publication years: a missing year is below
everything, years compare numerically. -/
def recencyLE : Option Int → Option Int → Prop
  | none, _ => True
  | some yb, some ya => yb ≤ ya
  | some _, none => False

/-- Reading of the claim that assigns every document one key: its truthy
DOI when it carries one, else its normalized title. -/
def specKeyC8 (p : Paper) : String ⊕ String :=
  match doiKey p with
  | some d => Sum.inl d
  | none => Sum.inr (normalizeTitle p.title)

/-- Entry whose score, when present, lies inside the unit interval. -/
def validScore (e : RankEntry) : Prop :=
  ∀ v, e.score = some v → 0 ≤ v ∧ v ≤ 1

/-! ## Concrete fixtures used by counterexamples and witnesses -/

/-- Paper with one DOI and a plain title. -/
def fixA : Paper := { title := "alpha beta", authors := [], abstract := "", url := "u1", doi := some "10.1/A" }

/-- Paper with a distinct DOI whose normalized title coincides with the
title of fixA. -/
def fixB : Paper := { title := "Alpha, beta!", authors := [], abstract := "", url := "u2", doi := some "10.1/B" }

/-- Paper with the same DOI as fixA but a different title. -/
def fixC : Paper := { title := "gamma", authors := [], abstract := "", url := "u3", doi := some "10.1/A" }

/-- Paper without DOI. -/
def fixD : Paper := { title := "delta study", authors := [], abstract := "", url := "u4" }

/-- Paper without DOI whose normalized title equals the one of fixD. -/
def fixE : Paper := { title := "Delta, study!", authors := [], abstract := "", url := "u5" }

/-- Ranked paper with a given url and final score, for filter runs. -/
def fixScored (u : String) (sc : ℚ) : Paper :=
  { title := u, authors := [], abstract := "", url := u, relevance_score := sc }

/-- Six distinct ranked papers that all pass the relevance filter. -/
def fixSix : List Paper :=
  [fixScored "s1" (4 / 5), fixScored "s2" (4 / 5), fixScored "s3" (4 / 5),
   fixScored "s4" (4 / 5), fixScored "s5" (4 / 5), fixScored "s6" (4 / 5)]

/-- Three distinct ranked papers that all fall below the relevance
threshold. -/
def fixThree : List Paper :=
  [fixScored "t1" (1 / 10), fixScored "t2" (1 / 10), fixScored "t3" (1 / 10)]

/-- Query with a maximum bound below the minimum bound. -/
def fixQmax : ResearchQuery := { question := "q", max_sources := 2, min_sources := 5 }

/-- Query with the default bounds of ResearchQuery. -/
def fixQmin : ResearchQuery := { question := "q", max_sources := 20, min_sources := 5 }

/-- Paper whose citation count saturates the citation term of the
heuristic. -/
def fixX : Paper := { title := "x paper", authors := [], abstract := "", url := "x", citations := 100 }

/-- Paper with strictly more citations than fixX but the same saturated
heuristic score. -/
def fixY : Paper := { title := "y paper", authors := [], abstract := "", url := "y", citations := 200 }

/-- Initial workflow state holding only the query. -/
def fixState0 : AgentState := { query := { question := "how do students learn circuits" }, current_step := "initialized" }

/-- Retrievable paper that passes every filter. -/
def fixGood : Paper :=
  { title := "good paper", authors := [], abstract := "", url := "ug", citations := 50, publishedYear := some 2021 }

/-- Abstracted external document analyzer mapping papers to their
titles. -/
def fixAnalyze (ps : List Paper) : List String := ps.map (fun p => p.title)

/-- Adapter outcome list in which every source failed. -/
def fixFailAdapters : List (Except String (List Paper)) :=
  [Except.error "arxiv down", Except.error "semantic scholar down", Except.error "aip down",
   Except.error "compadre down", Except.error "per central down"]

/-! ## Lemmas on deduplication -/

theorem dedupGo_eq_foldl (l : List Paper) :
    ∀ (kept : List Paper) (seenT seenD : List String),
    (∀ t, seenT.contains t = true ↔ ∃ q ∈ kept, normalizeTitle q.title = t) →
    (∀ d, seenD.contains d = true ↔ ∃ q ∈ kept, doiKey q = some d) →
    List.foldl (fun kept p => if kept.any (fun q => dupMatchB p q) then kept else kept ++ [p]) kept l
      = kept ++ dedupGo seenT seenD l := by
  induction l with
  | nil => intro kept seenT seenD _ _; simp [dedupGo]
  | cons p rest ih =>
    intro kept seenT seenD hT hD
    have hsplit : (kept.any (fun q => dupMatchB p q) = true) ↔
        ((∃ q ∈ kept, doiMatchB p q = true) ∨ seenT.contains (normalizeTitle p.title) = true) := by
      rw [hT]
      simp only [List.any_eq_true, dupMatchB, Bool.or_eq_true, decide_eq_true_iff]
      constructor
      · rintro ⟨q, hq, hor | he⟩
        · exact Or.inl ⟨q, hq, hor⟩
        · exact Or.inr ⟨q, hq, he.symm⟩
      · rintro (⟨q, hq, hor⟩ | ⟨q, hq, he⟩)
        · exact ⟨q, hq, Or.inl hor⟩
        · exact ⟨q, hq, Or.inr he.symm⟩
    cases hdp : doiKey p with
    | none =>
      have hnodoi : ∀ q, doiMatchB p q = false := by
        intro q; unfold doiMatchB; rw [hdp]
      have hcond : (kept.any (fun q => dupMatchB p q)) = seenT.contains (normalizeTitle p.title) := by
        rcases h2 : seenT.contains (normalizeTitle p.title) with _ | _
        · rcases h1 : kept.any (fun q => dupMatchB p q) with _ | _
          · rfl
          · exfalso
            rcases hsplit.mp h1 with ⟨q, _, hm⟩ | ht
            · rw [hnodoi q] at hm; exact Bool.false_ne_true hm
            · rw [h2] at ht; exact Bool.false_ne_true ht
        · exact hsplit.mpr (Or.inr h2) |> fun h => h
      simp only [List.foldl_cons, hcond]
      rcases ht : seenT.contains (normalizeTitle p.title) with _ | _
      · simp only [dedupGo, hdp, ht, if_neg Bool.false_ne_true]
        rw [ih (kept ++ [p]) (normalizeTitle p.title :: seenT) seenD]
        · simp
        · intro t
          simp only [List.contains_cons, Bool.or_eq_true, beq_iff_eq]
          rw [hT t]
          constructor
          · rintro (h | ⟨q, hq, hqt⟩)
            · exact ⟨p, by simp, h.symm⟩
            · exact ⟨q, by simp [hq], hqt⟩
          · rintro ⟨q, hq, hqt⟩
            rcases List.mem_append.mp hq with hq | hq
            · exact Or.inr ⟨q, hq, hqt⟩
            · simp only [List.mem_singleton] at hq; subst hq; exact Or.inl hqt.symm
        · intro d
          rw [hD d]
          constructor
          · rintro ⟨q, hq, hqd⟩; exact ⟨q, by simp [hq], hqd⟩
          · rintro ⟨q, hq, hqd⟩
            rcases List.mem_append.mp hq with hq | hq
            · exact ⟨q, hq, hqd⟩
            · simp only [List.mem_singleton] at hq; subst hq; rw [hdp] at hqd; cases hqd
      · simp only [dedupGo, hdp, ht, if_pos rfl]
        exact ih kept seenT seenD hT hD
    | some d =>
      have hdoi : ∀ q, doiMatchB p q = (doiKey q == some d) := by
        intro q; unfold doiMatchB; rw [hdp]
        cases hq : doiKey q with
        | none => simp
        | some e =>
          by_cases h : d = e
          · subst h; simp
          · have h2 : e ≠ d := fun hh => h hh.symm
            simp [h, h2]
      have hdm : (∃ q ∈ kept, doiMatchB p q = true) ↔ seenD.contains d = true := by
        rw [hD d]
        constructor
        · rintro ⟨q, hq, hm⟩
          rw [hdoi q] at hm
          exact ⟨q, hq, by simpa using hm⟩
        · rintro ⟨q, hq, hm⟩
          refine ⟨q, hq, ?_⟩
          rw [hdoi q, hm]; simp
      rcases hd2 : seenD.contains d with _ | _
      · rcases ht : seenT.contains (normalizeTitle p.title) with _ | _
        · have hcond : kept.any (fun q => dupMatchB p q) = false := by
            rcases h1 : kept.any (fun q => dupMatchB p q) with _ | _
            · rfl
            · exfalso
              rcases hsplit.mp h1 with hm | hts
              · rw [hd2] at hdm; exact Bool.false_ne_true (hdm.mp hm)
              · rw [ht] at hts; exact Bool.false_ne_true hts
          simp only [List.foldl_cons, hcond, if_neg Bool.false_ne_true]
          simp only [dedupGo, hdp, hd2, ht, Bool.false_eq_true, if_neg, if_neg Bool.false_ne_true]
          rw [ih (kept ++ [p]) (normalizeTitle p.title :: seenT) (d :: seenD)]
          · simp
          · intro t
            simp only [List.contains_cons, Bool.or_eq_true, beq_iff_eq]
            rw [hT t]
            constructor
            · rintro (h | ⟨q, hq, hqt⟩)
              · exact ⟨p, by simp, h.symm⟩
              · exact ⟨q, by simp [hq], hqt⟩
            · rintro ⟨q, hq, hqt⟩
              rcases List.mem_append.mp hq with hq | hq
              · exact Or.inr ⟨q, hq, hqt⟩
              · simp only [List.mem_singleton] at hq; subst hq; exact Or.inl hqt.symm
          · intro e
            simp only [List.contains_cons, Bool.or_eq_true, beq_iff_eq]
            rw [hD e]
            constructor
            · rintro (h | ⟨q, hq, hqd⟩)
              · exact ⟨p, by simp, by rw [hdp, h]⟩
              · exact ⟨q, by simp [hq], hqd⟩
            · rintro ⟨q, hq, hqd⟩
              rcases List.mem_append.mp hq with hq | hq
              · exact Or.inr ⟨q, hq, hqd⟩
              · simp only [List.mem_singleton] at hq; subst hq
                rw [hdp] at hqd
                exact Or.inl (Option.some_injective _ hqd).symm
        · have hcond : kept.any (fun q => dupMatchB p q) = true := hsplit.mpr (Or.inr ht)
          simp only [List.foldl_cons, hcond, if_pos rfl]
          simp only [dedupGo, hdp, hd2, ht, Bool.false_eq_true, if_neg, if_pos rfl]
          exact ih kept seenT seenD hT hD
      · have hcond : kept.any (fun q => dupMatchB p q) = true :=
          hsplit.mpr (Or.inl (hdm.mpr hd2))
        simp only [List.foldl_cons, hcond, if_pos rfl]
        simp only [dedupGo, hdp, hd2, if_pos rfl]
        exact ih kept seenT seenD hT hD

/-- Claim C3, counterexample.  The claim states that two documents
carrying distinct DOIs are both kept even when their normalized titles
coincide.  On fixA and fixB, which carry the distinct DOIs 10.1/A and
10.1/B and share the normalized title alpha beta, deduplication drops
the second document, refuting the claim as stated. -/
theorem C3_counterexample :
    fixA.doi = some "10.1/A" ∧ fixB.doi = some "10.1/B" ∧
    normalizeTitle fixA.title = normalizeTitle fixB.title ∧
    deduplicate_papers [fixA, fixB] = [fixA] ∧
    fixB ∉ deduplicate_papers [fixA, fixB] := by
  refine ⟨rfl, rfl, by decide, by decide, by decide⟩

/-- Claim C3, amended.  Deduplication drops a later document exactly
when it matches an earlier kept document by truthy DOI or, regardless of
whether both carry DOIs, by normalized title, keeping the first seen
document of each duplicate group: the sequential dedup of the source
coincides with the single pass that keeps a paper exactly when no
previously kept paper matches it by DOI or normalized title.  In
particular two documents with the same DOI but different titles keep
only the first seen one, and two documents with distinct DOIs but equal
normalized titles also keep only the first seen one. -/
theorem C3_amended_dedup_refines_spec (l : List Paper) :
    deduplicate_papers l = dedupAmendedSpec l := by
  unfold deduplicate_papers dedupAmendedSpec
  have h := dedupGo_eq_foldl l [] [] [] (by simp) (by simp)
  simpa using h.symm

/-! ## Lemmas for dedup size and idempotence -/

theorem dedupGo_cons_some {p : Paper} {rest : List Paper} {seenT seenD : List String} {d : String}
    (h : doiKey p = some d) :
    dedupGo seenT seenD (p :: rest) =
      if seenD.contains d then dedupGo seenT seenD rest
      else if seenT.contains (normalizeTitle p.title) then dedupGo seenT seenD rest
      else p :: dedupGo (normalizeTitle p.title :: seenT) (d :: seenD) rest := by
  simp only [dedupGo, h]

theorem dedupGo_cons_none {p : Paper} {rest : List Paper} {seenT seenD : List String}
    (h : doiKey p = none) :
    dedupGo seenT seenD (p :: rest) =
      if seenT.contains (normalizeTitle p.title) then dedupGo seenT seenD rest
      else p :: dedupGo (normalizeTitle p.title :: seenT) seenD rest := by
  simp only [dedupGo, h]

theorem freshP_of_cons_title {t : String} {seenT seenD : List String} {p : Paper}
    (h : FreshP (t :: seenT) seenD p) : FreshP seenT seenD p := by
  obtain ⟨h1, h2⟩ := h
  refine ⟨?_, h2⟩
  simp only [List.contains_cons, Bool.or_eq_false_iff] at h1
  exact h1.2

theorem freshP_of_cons_doi {d : String} {seenT seenD : List String} {p : Paper}
    (h : FreshP seenT (d :: seenD) p) : FreshP seenT seenD p := by
  obtain ⟨h1, h2⟩ := h
  refine ⟨h1, fun e he => ?_⟩
  have := h2 e he
  simp only [List.contains_cons, Bool.or_eq_false_iff] at this
  exact this.2

theorem dedupGo_fresh (l : List Paper) :
    ∀ seenT seenD, ∀ p ∈ dedupGo seenT seenD l, FreshP seenT seenD p := by
  induction l with
  | nil => intro seenT seenD p hp; simp [dedupGo] at hp
  | cons q rest ih =>
    intro seenT seenD p hp
    cases hdq : doiKey q with
    | none =>
      rw [dedupGo_cons_none hdq] at hp
      by_cases ht : seenT.contains (normalizeTitle q.title) = true
      · rw [if_pos ht] at hp; exact ih seenT seenD p hp
      · rw [if_neg ht] at hp
        rcases List.mem_cons.mp hp with rfl | hp
        · exact ⟨Bool.eq_false_iff.mpr ht, fun d hd => by rw [hdq] at hd; cases hd⟩
        · exact freshP_of_cons_title (ih _ _ p hp)
    | some d =>
      rw [dedupGo_cons_some hdq] at hp
      by_cases hd2 : seenD.contains d = true
      · rw [if_pos hd2] at hp; exact ih seenT seenD p hp
      · rw [if_neg hd2] at hp
        by_cases ht : seenT.contains (normalizeTitle q.title) = true
        · rw [if_pos ht] at hp; exact ih seenT seenD p hp
        · rw [if_neg ht] at hp
          rcases List.mem_cons.mp hp with rfl | hp
          · refine ⟨Bool.eq_false_iff.mpr ht, fun e he => ?_⟩
            rw [hdq] at he
            rw [(Option.some_injective _ he : d = e)] at hd2
            exact Bool.eq_false_iff.mpr hd2
          · exact freshP_of_cons_title (freshP_of_cons_doi (ih _ _ p hp))

theorem dedupGo_pairwise (l : List Paper) :
    ∀ seenT seenD, List.Pairwise SeparatedP (dedupGo seenT seenD l) := by
  induction l with
  | nil => intro seenT seenD; simp [dedupGo]
  | cons q rest ih =>
    intro seenT seenD
    cases hdq : doiKey q with
    | none =>
      rw [dedupGo_cons_none hdq]
      by_cases ht : seenT.contains (normalizeTitle q.title) = true
      · rw [if_pos ht]; exact ih seenT seenD
      · rw [if_neg ht]
        refine List.Pairwise.cons ?_ (ih _ _)
        intro p hp
        have hf := dedupGo_fresh rest _ _ p hp
        obtain ⟨hf1, _⟩ := hf
        simp only [List.contains_cons, Bool.or_eq_false_iff, beq_eq_false_iff_ne] at hf1
        exact ⟨hf1.1, fun d hd => by rw [hdq]; exact fun h => by cases h⟩
    | some d =>
      rw [dedupGo_cons_some hdq]
      by_cases hd2 : seenD.contains d = true
      · rw [if_pos hd2]; exact ih seenT seenD
      · rw [if_neg hd2]
        by_cases ht : seenT.contains (normalizeTitle q.title) = true
        · rw [if_pos ht]; exact ih seenT seenD
        · rw [if_neg ht]
          refine List.Pairwise.cons ?_ (ih _ _)
          intro p hp
          have hf := dedupGo_fresh rest _ _ p hp
          obtain ⟨hf1, hf2⟩ := hf
          simp only [List.contains_cons, Bool.or_eq_false_iff, beq_eq_false_iff_ne] at hf1
          refine ⟨hf1.1, fun e he => ?_⟩
          have := hf2 e he
          simp only [List.contains_cons, Bool.or_eq_false_iff, beq_eq_false_iff_ne] at this
          rw [hdq]
          intro hcontra
          exact this.1 (Option.some_injective _ hcontra.symm)

theorem dedupGo_of_fresh (l : List Paper) :
    ∀ seenT seenD, (∀ p ∈ l, FreshP seenT seenD p) → List.Pairwise SeparatedP l →
    dedupGo seenT seenD l = l := by
  induction l with
  | nil => intro seenT seenD _ _; rfl
  | cons q rest ih =>
    intro seenT seenD hfresh hpw
    obtain ⟨hq1, hq2⟩ := hfresh q (by simp)
    obtain ⟨hpwq, hpwrest⟩ := List.pairwise_cons.mp hpw
    cases hdq : doiKey q with
    | none =>
      rw [dedupGo_cons_none hdq]
      rw [if_neg (by rw [hq1]; exact Bool.false_ne_true)]
      congr 1
      refine ih _ _ (fun p hp => ?_) hpwrest
      obtain ⟨hp1, hp2⟩ := hfresh p (by simp [hp])
      obtain ⟨hsep1, _⟩ := hpwq p hp
      refine ⟨?_, hp2⟩
      simp only [List.contains_cons, Bool.or_eq_false_iff, beq_eq_false_iff_ne]
      exact ⟨hsep1, hp1⟩
    | some d =>
      rw [dedupGo_cons_some hdq]
      rw [if_neg (by rw [hq2 d hdq]; exact Bool.false_ne_true)]
      rw [if_neg (by rw [hq1]; exact Bool.false_ne_true)]
      congr 1
      refine ih _ _ (fun p hp => ?_) hpwrest
      obtain ⟨hp1, hp2⟩ := hfresh p (by simp [hp])
      obtain ⟨hsep1, hsep2⟩ := hpwq p hp
      constructor
      · simp only [List.contains_cons, Bool.or_eq_false_iff, beq_eq_false_iff_ne]
        exact ⟨hsep1, hp1⟩
      · intro e he
        simp only [List.contains_cons, Bool.or_eq_false_iff, beq_eq_false_iff_ne]
        refine ⟨?_, hp2 e he⟩
        intro hcontra
        subst hcontra
        exact hsep2 e he hdq

/-- Deduplication output never holds two equal papers: shared by the
boundedness analysis of the filter stage. -/
theorem deduplicate_papers_nodup (l : List Paper) : (deduplicate_papers l).Nodup := by
  have h := dedupGo_pairwise l [] []
  refine h.imp ?_
  intro p q hsep
  obtain ⟨h1, _⟩ := hsep
  intro hcontra
  subst hcontra
  exact h1 rfl

/-- Size counter over title keys mirroring the no DOI behaviour of the
dedup loop, expressed through finite sets. -/
theorem distinctCount_eq_card (ts : List String) :
    ∀ seen, distinctCount seen ts = (ts.toFinset \ seen.toFinset).card := by
  induction ts with
  | nil => intro seen; simp [distinctCount]
  | cons t rest ih =>
    intro seen
    unfold distinctCount
    by_cases h : seen.contains t = true
    · rw [if_pos h, ih seen]
      have ht : t ∈ seen.toFinset := by
        simp only [List.mem_toFinset]
        exact List.mem_of_elem_eq_true h
      congr 1
      simp only [List.toFinset_cons]
      rw [Finset.insert_sdiff_of_mem _ ht]
    · rw [if_neg h, ih (t :: seen)]
      have ht : t ∉ seen.toFinset := by
        simp only [List.mem_toFinset]
        intro hc
        exact h (List.elem_eq_true_of_mem hc)
      simp only [List.toFinset_cons]
      have hset : insert t rest.toFinset \ seen.toFinset
          = insert t (rest.toFinset \ insert t seen.toFinset) := by
        ext x
        by_cases hx : x = t
        · subst hx; simp [ht]
        · simp [hx]
      rw [hset, Finset.card_insert_of_not_mem (by simp)]

theorem dedupGo_nodoi_length (l : List Paper) :
    ∀ seenT seenD, (∀ p ∈ l, doiKey p = none) →
    (dedupGo seenT seenD l).length
      = distinctCount seenT (l.map (fun p => normalizeTitle p.title)) := by
  induction l with
  | nil => intro _ _ _; simp [dedupGo, distinctCount]
  | cons q rest ih =>
    intro seenT seenD h
    have hdq : doiKey q = none := h q (by simp)
    rw [dedupGo_cons_none hdq]
    have hrest : ∀ p ∈ rest, doiKey p = none := fun p hp => h p (by simp [hp])
    by_cases ht : seenT.contains (normalizeTitle q.title) = true
    · rw [if_pos ht]
      simp only [List.map_cons, distinctCount, ht, if_pos]
      exact ih seenT seenD hrest
    · rw [if_neg ht]
      simp only [List.map_cons, distinctCount,
        Bool.eq_false_iff.mpr ht, Bool.false_eq_true, if_neg, List.length_cons]
      exact congrArg (· + 1) (ih _ _ hrest)

/-- Claim C8, counterexample.  Reading each document key as its DOI when
present and its normalized title otherwise, the list of fixA and fixB
carries two distinct keys, yet deduplication returns one paper: the
output size does not equal the number of distinct keys. -/
theorem C8_counterexample :
    ((([fixA, fixB]).map specKeyC8).dedup).length = 2
    ∧ (deduplicate_papers [fixA, fixB]).length = 1 := by
  exact ⟨by decide, by decide⟩

/-- Claim C8, amended.  When no document carries a truthy DOI,
deduplication output size equals the number of distinct normalized
titles; in general the size can be smaller than the number of distinct
keys because the title test also merges documents with distinct DOIs.
Re-running deduplication on its own output is always the identity. -/
theorem C8_amended :
    (∀ l : List Paper, (∀ p ∈ l, doiKey p = none) →
      (deduplicate_papers l).length
        = (l.map (fun p => normalizeTitle p.title)).toFinset.card)
    ∧ ∀ l : List Paper, deduplicate_papers (deduplicate_papers l) = deduplicate_papers l := by
  constructor
  · intro l h
    unfold deduplicate_papers
    rw [dedupGo_nodoi_length l [] [] h, distinctCount_eq_card]
    simp
  · intro l
    have hfresh : ∀ p ∈ deduplicate_papers l, FreshP [] [] p := by
      intro p _
      exact ⟨rfl, fun d _ => rfl⟩
    exact dedupGo_of_fresh (deduplicate_papers l) [] [] hfresh (dedupGo_pairwise l [] [])

/-- Witness for the amended C8 at a concrete duplicate list. -/
theorem C8_amended_witness :
    (∀ p ∈ [fixD, fixE], doiKey p = none)
    ∧ (deduplicate_papers [fixD, fixE]).length
        = ([fixD, fixE].map (fun p => normalizeTitle p.title)).toFinset.card
    ∧ deduplicate_papers (deduplicate_papers [fixD, fixE]) = deduplicate_papers [fixD, fixE] :=
  ⟨by decide, C8_amended.1 [fixD, fixE] (by decide), C8_amended.2 [fixD, fixE]⟩

/-- Claim C9, confirmed.  The heuristic score is monotone: between two
papers scored by the heuristic alone, at least as many citations and at
least as recent a publication give at least as high a score. -/
theorem C9_heuristic_monotone (A B : Paper) (hc : B.citations ≤ A.citations)
    (hr : recencyLE B.publishedYear A.publishedYear) :
    heuristic_score B ≤ heuristic_score A := by
  unfold heuristic_score
  have h1 : pyMin ((B.citations : ℚ) / 100) (1 / 2) ≤ pyMin ((A.citations : ℚ) / 100) (1 / 2) := by
    have hq : (B.citations : ℚ) ≤ (A.citations : ℚ) := by exact_mod_cast hc
    unfold pyMin
    split_ifs <;> linarith
  have h2 : (match B.publishedYear with
       | some y => if 2020 ≤ y then (3 : ℚ) / 10 else 1 / 10
       | none => (1 : ℚ) / 10)
      ≤ (match A.publishedYear with
       | some y => if 2020 ≤ y then (3 : ℚ) / 10 else 1 / 10
       | none => (1 : ℚ) / 10) := by
    cases hb : B.publishedYear with
    | none =>
      cases ha : A.publishedYear with
      | none => exact le_rfl
      | some ya =>
        show (1 : ℚ) / 10 ≤ if 2020 ≤ ya then (3 : ℚ) / 10 else 1 / 10
        split_ifs <;> norm_num
    | some yb =>
      cases ha : A.publishedYear with
      | none => rw [hb, ha] at hr; exact absurd hr not_false
      | some ya =>
        rw [hb, ha] at hr
        have hy : yb ≤ ya := hr
        show (if 2020 ≤ yb then (3 : ℚ) / 10 else 1 / 10)
          ≤ if 2020 ≤ ya then (3 : ℚ) / 10 else 1 / 10
        split_ifs with hby hay
        · exact le_rfl
        · exact absurd (le_trans hby hy) hay
        · norm_num
        · exact le_rfl
  linarith

/-- Witness for C9 at concrete papers: fixGood dominates fixX in
citations capped below saturation and in recency. -/
theorem C9_heuristic_monotone_witness :
    fixD.citations ≤ fixGood.citations
    ∧ recencyLE fixD.publishedYear fixGood.publishedYear
    ∧ heuristic_score fixD ≤ heuristic_score fixGood :=
  ⟨by decide, trivial, C9_heuristic_monotone fixGood fixD (by decide) trivial⟩

/-! ## Lemmas on the stable descending sort of the ranking step -/

theorem insertScoreDesc_perm (p : Paper) (l : List Paper) :
    List.Perm (insertScoreDesc p l) (p :: l) := by
  induction l with
  | nil => exact List.Perm.refl _
  | cons q rest ih =>
    unfold insertScoreDesc
    by_cases h : q.relevance_score ≤ p.relevance_score
    · rw [if_pos h]
    · rw [if_neg h]
      exact (ih.cons q).trans (List.Perm.swap p q rest)

theorem sortScoreDesc_perm (l : List Paper) : List.Perm (sortScoreDesc l) l := by
  induction l with
  | nil => exact List.Perm.refl _
  | cons p rest ih =>
    exact (insertScoreDesc_perm p (sortScoreDesc rest)).trans (ih.cons p)

theorem pairwise_insertScoreDesc (p : Paper) (l : List Paper)
    (h : List.Pairwise scoreGE l) : List.Pairwise scoreGE (insertScoreDesc p l) := by
  induction l with
  | nil => simp [insertScoreDesc]
  | cons q rest ih =>
    obtain ⟨hq, hrest⟩ := List.pairwise_cons.mp h
    unfold insertScoreDesc
    by_cases hle : q.relevance_score ≤ p.relevance_score
    · rw [if_pos hle]
      refine List.Pairwise.cons ?_ h
      intro x hx
      rcases List.mem_cons.mp hx with rfl | hx
      · exact hle
      · exact le_trans (hq x hx) hle
    · rw [if_neg hle]
      refine List.Pairwise.cons ?_ (ih hrest)
      intro x hx
      have hx2 := (insertScoreDesc_perm p rest).mem_iff.mp hx
      rcases List.mem_cons.mp hx2 with rfl | hx2
      · exact le_of_lt (lt_of_not_le hle)
      · exact hq x hx2

theorem sortScoreDesc_pairwise (l : List Paper) :
    List.Pairwise scoreGE (sortScoreDesc l) := by
  induction l with
  | nil => simp [sortScoreDesc]
  | cons p rest ih => exact pairwise_insertScoreDesc p (sortScoreDesc rest) ih

theorem filter_insertScoreDesc (s : ℚ) (p : Paper) (l : List Paper) :
    (insertScoreDesc p l).filter (fun q => q.relevance_score == s)
      = if p.relevance_score == s
        then p :: l.filter (fun q => q.relevance_score == s)
        else l.filter (fun q => q.relevance_score == s) := by
  induction l with
  | nil =>
    unfold insertScoreDesc
    by_cases hp : (p.relevance_score == s) = true <;> simp [List.filter, hp]
  | cons q rest ih =>
    unfold insertScoreDesc
    by_cases h : q.relevance_score ≤ p.relevance_score
    · rw [if_pos h]
      by_cases hp : (p.relevance_score == s) = true <;>
        by_cases hq : (q.relevance_score == s) = true <;>
          simp [List.filter_cons, hp, hq]
    · rw [if_neg h]
      simp only [List.filter_cons, ih]
      by_cases hp : (p.relevance_score == s) = true
      · have hps : p.relevance_score = s := by simpa using hp
        have hq : (q.relevance_score == s) = false := by
          have : q.relevance_score ≠ s := by
            intro hc
            exact h (le_of_eq (hc.trans hps.symm))
          simpa using this
        simp [hp, hq]
      · simp [hp]

theorem filter_sortScoreDesc (s : ℚ) (l : List Paper) :
    (sortScoreDesc l).filter (fun q => q.relevance_score == s)
      = l.filter (fun q => q.relevance_score == s) := by
  induction l with
  | nil => rfl
  | cons p rest ih =>
    show (insertScoreDesc p (sortScoreDesc rest)).filter _ = _
    rw [filter_insertScoreDesc, ih, List.filter_cons]

/-- Claim C4, counterexample.  After heuristic ranking of fixX and fixY,
both papers carry the same final score while fixY has strictly more
citations, yet the ranked list keeps fixX first: the citation tie break
stated by the claim does not happen. -/
theorem C4_counterexample :
    rank_papers [fixX, fixY] none
      = [{ fixX with relevance_score := 4 / 5 }, { fixY with relevance_score := 4 / 5 }]
    ∧ fixX.citations < fixY.citations := by
  exact ⟨by decide, by decide⟩

/-- Claim C4, amended.  After ranking, the candidate list is a
permutation of the scored candidates, sorted descending by final
relevance score; equal scores keep their first seen order (the filter of
any fixed score value is preserved) and the citation count plays no role
in tie breaking. -/
theorem C4_amended_sorted_stable (l : List Paper) (o : Option String) :
    List.Perm (rank_papers l o) (scoredPapers l o)
    ∧ List.Pairwise scoreGE (rank_papers l o)
    ∧ ∀ s : ℚ, (rank_papers l o).filter (fun p => p.relevance_score == s)
        = (scoredPapers l o).filter (fun p => p.relevance_score == s) := by
  by_cases hl : l = []
  · subst hl
    have hsc : scoredPapers [] o = [] := by cases o <;> rfl
    rw [hsc]
    refine ⟨?_, ?_, ?_⟩ <;> simp [rank_papers]
  · have hr : rank_papers l o = sortScoreDesc (scoredPapers l o) := by
      simp [rank_papers, hl]
    rw [hr]
    exact ⟨sortScoreDesc_perm _, sortScoreDesc_pairwise _, fun s => filter_sortScoreDesc s _⟩

/-! ## Lemmas on the filter stage -/

theorem filterLoop_length_le (q : ResearchQuery) (l : List Paper) :
    ∀ n, n < q.max_sources → n + (filterLoop q l n).length ≤ q.max_sources := by
  induction l with
  | nil => intro n hn; simp [filterLoop]; omega
  | cons p rest ih =>
    intro n hn
    unfold filterLoop
    by_cases hp : passesFilters q p = true
    · rw [if_pos hp]
      by_cases hb : q.max_sources ≤ n + 1
      · rw [if_pos hb]; simp; omega
      · rw [if_neg hb]
        have := ih (n + 1) (by omega)
        simp only [List.length_cons]
        omega
    · rw [if_neg hp]; exact ih n hn

theorem length_filter_split (l : List Paper) (pred : Paper → Bool) :
    l.length = (l.filter pred).length + (l.filter (fun p => !(pred p))).length := by
  induction l with
  | nil => simp
  | cons p rest ih =>
    by_cases hp : pred p = true <;> simp [List.filter_cons, hp, ih] <;> omega

theorem length_filter_contains_le (l fl : List Paper) (h : l.Nodup) :
    (l.filter (fun p => fl.contains p)).length ≤ fl.length := by
  have h1 : (l.filter (fun p => fl.contains p)).Nodup := h.filter _
  have h2 : (l.filter (fun p => fl.contains p)).toFinset ⊆ fl.toFinset := by
    intro x hx
    simp only [List.mem_toFinset, List.mem_filter] at hx ⊢
    exact List.mem_of_elem_eq_true hx.2
  calc (l.filter (fun p => fl.contains p)).length
      = (l.filter (fun p => fl.contains p)).toFinset.card := (List.toFinset_card_of_nodup h1).symm
    _ ≤ fl.toFinset.card := Finset.card_le_card h2
    _ ≤ fl.length := List.toFinset_card_le fl

/-- Claim C2, counterexample.  With a maximum bound of two below the
minimum bound of five, six passing candidates produce an output of five
papers, violating the claimed maximum bound; and three distinct
candidates all below the relevance threshold with the default bounds
produce an empty output, violating the claimed minimum of
min of min_sources and the number of distinct candidates. -/
theorem C2_counterexample :
    fixQmax.max_sources = 2 ∧ (apply_filters fixSix fixQmax).length = 5
    ∧ fixQmin.min_sources = 5 ∧ fixThree.length = 3
    ∧ (apply_filters fixThree fixQmin).length = 0 := by
  exact ⟨rfl, by decide, rfl, by decide, by decide⟩

/-- Claim C2, amended.  When the query bounds are consistent (a positive
maximum at least the minimum), the filter output is bounded above by the
maximum source bound; and whenever the ranked candidate list, which is
free of duplicates as produced by deduplication, holds at least
min_sources papers, the underfill step guarantees at least min_sources
papers in the output.  When fewer than min_sources candidates exist, the
output holds exactly the candidates passing the filters, which can be
fewer than the number of available candidates. -/
theorem C2_amended_bounds :
    (∀ (l : List Paper) (q : ResearchQuery), 1 ≤ q.max_sources → q.min_sources ≤ q.max_sources →
      (apply_filters l q).length ≤ q.max_sources)
    ∧ (∀ (l : List Paper) (q : ResearchQuery), l.Nodup → q.min_sources ≤ l.length →
      q.min_sources ≤ (apply_filters l q).length) := by
  constructor
  · intro l q h1 h2
    have hf : (filterLoop q l 0).length ≤ q.max_sources := by
      have := filterLoop_length_le q l 0 h1
      omega
    unfold apply_filters
    by_cases hcond : (filterLoop q l 0).length < q.min_sources ∧ q.min_sources ≤ l.length
    · rw [if_pos hcond]
      simp only [List.length_append, List.length_take]
      omega
    · rw [if_neg hcond]
      exact hf
  · intro l q hnd hmin
    unfold apply_filters
    by_cases hcond : (filterLoop q l 0).length < q.min_sources ∧ q.min_sources ≤ l.length
    · rw [if_pos hcond]
      simp only [List.length_append, List.length_take]
      have hsplit := length_filter_split l (fun p => (filterLoop q l 0).contains p)
      have hle := length_filter_contains_le l (filterLoop q l 0) hnd
      omega
    · rw [if_neg hcond]
      rcases Decidable.not_and_iff_or_not.mp hcond with h | h
      · omega
      · exact absurd hmin h

/-- Witness for the amended C2 at the six paper fixture with the default
query bounds. -/
theorem C2_amended_bounds_witness :
    (apply_filters fixSix fixQmin).length ≤ fixQmin.max_sources
    ∧ fixQmin.min_sources ≤ (apply_filters fixSix fixQmin).length :=
  ⟨C2_amended_bounds.1 fixSix fixQmin (by decide) (by decide),
   C2_amended_bounds.2 fixSix fixQmin (by decide) (by decide)⟩

/-! ## Lemmas on ranking response parsing -/

theorem scoreOfText_bounds (st : String) : 0 ≤ scoreOfText st ∧ scoreOfText st ≤ 1 := by
  rcases h1 : firstNumRun st with _ | run
  · have h : scoreOfText st = 1 / 2 := by simp [scoreOfText, h1]
    rw [h]; constructor <;> norm_num
  · rcases h2 : pyFloat run with _ | v
    · have h : scoreOfText st = 1 / 2 := by simp [scoreOfText, h1, h2]
      rw [h]; constructor <;> norm_num
    · have h : scoreOfText st = pyMin (pyMax v 0) 1 := by simp [scoreOfText, h1, h2]
      rw [h]; unfold pyMin pyMax
      split_ifs <;> constructor <;> linarith

theorem parseRankGo_valid (lines : List String) :
    ∀ cur, validScore cur → ∀ e ∈ parseRankGo lines cur, validScore e := by
  induction lines with
  | nil =>
    intro cur hcur e he
    unfold parseRankGo at he
    by_cases h : cur = ({} : RankEntry)
    · rw [if_pos h] at he; cases he
    · rw [if_neg h] at he
      rw [List.mem_singleton.mp he]
      exact hcur
  | cons line rest ih =>
    intro cur hcur e he
    unfold parseRankGo at he
    by_cases h1 : pyStrip line = ""
    · rw [if_pos h1] at he; exact ih cur hcur e he
    · rw [if_neg h1] at he
      by_cases h2 : (pyStartsWith (pyStrip line) "Paper ID:" || pyStartsWith (pyStrip line) "Paper ") = true
      · rw [if_pos h2] at he
        rcases List.mem_append.mp he with h | h
        · by_cases h3 : cur = ({} : RankEntry)
          · rw [if_pos h3] at h; cases h
          · rw [if_neg h3] at h
            rw [List.mem_singleton.mp h]
            exact hcur
        · exact ih {} (fun v hv => by cases hv) e h
      · rw [if_neg h2] at he
        by_cases h3 : pyStartsWith (pyStrip line) "Score:" = true
        · rw [if_pos h3] at he
          refine ih _ ?_ e he
          intro v hv
          rw [(Option.some_injective _ hv).symm]
          exact scoreOfText_bounds _
        · rw [if_neg h3] at he
          by_cases h4 : pyStartsWith (pyStrip line) "Key Physics Concepts:" = true
          · rw [if_pos h4] at he
            refine ih _ ?_ e he
            intro v hv
            exact hcur v hv
          · rw [if_neg h4] at he
            exact ih cur hcur e he

theorem parse_ranking_results_length (t : String) (n : Nat) :
    (parse_ranking_results t n).length = n := by
  unfold parse_ranking_results
  simp only [List.length_take, List.length_append, List.length_replicate]
  omega

/-- Claim C10, counterexample.  A ranking block with a header line and a
concepts line but no Score line parses to an entry that carries no score
at all: the key is absent from the dict, so the entry is not assigned
the claimed default of one half (the consumer substitutes the heuristic
score instead). -/
theorem C10_counterexample :
    parse_ranking_results "Paper ID: 1\nKey Physics Concepts: force" 1
      = [{ score := none, physics_concepts := some ["force"] }]
    ∧ ({ score := none, physics_concepts := some ["force"] } : RankEntry).score ≠ some (1 / 2) := by
  exact ⟨by decide, by decide⟩

/-- Claim C10, amended.  Parsing always returns exactly num_papers
entries; every entry that carries a score has it inside the unit
interval; a Score line whose numeric text is missing or unreadable is
assigned the default of one half, as are the entries added by padding;
but an entry whose block has no Score line carries no score at all. -/
theorem C10_amended_parse :
    (∀ t n, (parse_ranking_results t n).length = n)
    ∧ (∀ t n, ∀ e ∈ parse_ranking_results t n, ∀ v, e.score = some v → 0 ≤ v ∧ v ≤ 1)
    ∧ (∀ st, (firstNumRun st = none ∨ (∃ run, firstNumRun st = some run ∧ pyFloat run = none)) →
        scoreOfText st = 1 / 2) := by
  refine ⟨parse_ranking_results_length, ?_, ?_⟩
  · intro t n e he v hv
    unfold parse_ranking_results at he
    have he2 := List.take_subset n _ he
    rcases List.mem_append.mp he2 with h | h
    · exact parseRankGo_valid _ {} (fun v hv => by cases hv) e h v hv
    · rw [List.eq_of_mem_replicate h] at hv
      rw [(Option.some_injective _ hv).symm]
      constructor <;> norm_num
  · intro st h
    rcases h with h | ⟨run, h1, h2⟩
    · simp [scoreOfText, h]
    · simp [scoreOfText, h1, h2]

/-- Witness for the amended C10 at a concrete response text. -/
theorem C10_amended_parse_witness :
    (parse_ranking_results "Score: 2.5" 1).length = 1
    ∧ (0 ≤ (1 : ℚ) ∧ (1 : ℚ) ≤ 1)
    ∧ scoreOfText "no digits" = 1 / 2 :=
  ⟨C10_amended_parse.1 "Score: 2.5" 1,
   C10_amended_parse.2.1 "Score: 2.5" 1 { score := some 1, physics_concepts := none }
     (by decide) 1 (by decide),
   C10_amended_parse.2.2 "no digits" (Or.inl (by decide))⟩

/-! ## Lemmas on the retry loop -/

theorem execChainGo_all_error (results : Nat → Except String String)
    (hall : ∀ j, ∃ e, results j = Except.error e) :
    ∀ fuel i, 1 ≤ fuel →
    ∃ e, results (i + fuel - 1) = Except.error e ∧
      execChainGo results i fuel
        = (LLMOutcome.raised e, (List.range' i (fuel - 1)).map (fun k => 2 ^ k)) := by
  intro fuel
  induction fuel with
  | zero => intro i h; omega
  | succ f ihf =>
    intro i _
    obtain ⟨e0, he0⟩ := hall i
    cases f with
    | zero =>
      refine ⟨e0, by simpa using he0, ?_⟩
      simp [execChainGo, he0]
    | succ f2 =>
      obtain ⟨e, he, hv⟩ := ihf (i + 1) (by omega)
      refine ⟨e, by rw [show i + (f2 + 1 + 1) - 1 = i + 1 + (f2 + 1) - 1 by omega]; exact he, ?_⟩
      have hstep : execChainGo results i (f2 + 1 + 1)
          = ((execChainGo results (i + 1) (f2 + 1)).1,
             2 ^ i :: (execChainGo results (i + 1) (f2 + 1)).2) := by
        simp [execChainGo, he0]
      rw [hstep, hv]
      simp [List.range']

/-- Claim C6, counterexample.  Three attempts that all fail make
_execute_llm_chain reraise the final error to its caller (modelled by
the raised outcome, distinct from any returned value), after sleeping
the exponential delays of one and two seconds: the call does not return
a structured failure value. -/
theorem C6_counterexample :
    execute_llm_chain 3 (fun _ => Except.error "boom")
      = (LLMOutcome.raised "boom", [1, 2])
    ∧ ∀ r, LLMOutcome.raised "boom" ≠ LLMOutcome.success r := by
  exact ⟨by decide, fun r h => by cases h⟩

/-- Claim C6, amended.  With at least one configured attempt, when every
attempt fails the invocation performs exactly maxRetries attempts,
sleeps an exponentially increasing delay of two to the attempt index
between consecutive attempts, and reraises the error of the final
attempt to its caller instead of returning a structured failure value. -/
theorem C6_amended_retry :
    ∀ (maxRetries : Nat) (results : Nat → Except String String), 1 ≤ maxRetries →
    (∀ j, ∃ e, results j = Except.error e) →
    ∃ e, results (maxRetries - 1) = Except.error e ∧
      execute_llm_chain maxRetries results
        = (LLMOutcome.raised e, (List.range (maxRetries - 1)).map (fun k => 2 ^ k)) := by
  intro maxRetries results hm hall
  obtain ⟨e, he, hv⟩ := execChainGo_all_error results hall maxRetries 0 hm
  refine ⟨e, by simpa using he, ?_⟩
  rw [execute_llm_chain, hv, List.range_eq_range']

/-- Witness for the amended C6 at four attempts that all fail. -/
theorem C6_amended_retry_witness :
    execute_llm_chain 4 (fun _ => Except.error "err")
      = (LLMOutcome.raised "err", [1, 2, 4]) := by
  obtain ⟨e, he, hv⟩ :=
    C6_amended_retry 4 (fun _ => Except.error "err") (by omega) (fun j => ⟨"err", rfl⟩)
  have he2 : e = "err" := by
    have : Except.error (ε := String) "err" = Except.error e := he
    injection this with h
    exact h.symm
  rw [he2] at hv
  rw [hv]
  rfl

/-- Claim C7, confirmed.  When the primary model fails to initialize and
the statically configured alternate initializes, the agent returns the
alternate client, records the alternate descriptor in its configuration,
and an invocation whose first attempt against the working alternate
succeeds returns that response with no retries. -/
theorem C7_alternate_fallback (mkLLM : ModelCfg → Except String LLMClient) (cfg : AgentCfg)
    (am : ModelCfg) (llm2 : LLMClient) (e : String)
    (h1 : mkLLM cfg.model = Except.error e) (h2 : mkLLM am = Except.ok llm2) :
    initialize_llm mkLLM cfg (some am) = Except.ok (llm2, { cfg with model := am })
    ∧ ∀ (results : Nat → Except String String) (r : String) (maxR : Nat),
        1 ≤ maxR → results 0 = Except.ok r →
        execute_llm_chain maxR results = (LLMOutcome.success r, []) := by
  constructor
  · simp [initialize_llm, h1, h2]
  · intro results r maxR hm h0
    cases maxR with
    | zero => omega
    | succ f => simp [execute_llm_chain, execChainGo, h0]

/-- Witness for C7 at a concrete failing primary and working alternate. -/
theorem C7_alternate_fallback_witness :
    initialize_llm
        (fun m => if m.model_id = "alt" then Except.ok { model_id := "alt" } else Except.error "down")
        { name := "scout", model := { name := "primary", model_id := "prim" } }
        (some { name := "alternate", model_id := "alt" })
      = Except.ok ({ model_id := "alt" },
          { name := "scout", model := { name := "alternate", model_id := "alt" } })
    ∧ execute_llm_chain 3 (fun _ => Except.ok "hello") = (LLMOutcome.success "hello", []) := by
  obtain ⟨w1, w2⟩ :=
    C7_alternate_fallback
      (fun m => if m.model_id = "alt" then Except.ok { model_id := "alt" } else Except.error "down")
      { name := "scout", model := { name := "primary", model_id := "prim" } }
      { name := "alternate", model_id := "alt" } { model_id := "alt" } "down"
      rfl rfl
  exact ⟨w1, w2 (fun _ => Except.ok "hello") "hello" 3 (by omega) rfl⟩

/-! ## Lemmas on the orchestrator nodes -/

theorem foldl_adapters_all_error (adapters : List (Except String (List Paper)))
    (h : ∀ r ∈ adapters, ∃ e, r = Except.error e) :
    ∀ acc, adapters.foldl
        (fun acc r => match r with | .ok ps => acc ++ ps | .error _ => acc) acc = acc := by
  induction adapters with
  | nil => intro acc; rfl
  | cons r rest ih =>
    intro acc
    obtain ⟨e, he⟩ := h r (by simp)
    subst he
    simp only [List.foldl_cons]
    exact ih (fun r hr => h r (by simp [hr])) acc

theorem apply_filters_nil (q : ResearchQuery) : apply_filters [] q = [] := by
  simp only [apply_filters, filterLoop, List.length_nil]
  rw [if_neg]
  rintro ⟨h1, h2⟩
  omega

theorem scout_process_all_error (adapters : List (Except String (List Paper)))
    (h : ∀ r ∈ adapters, ∃ e, r = Except.error e) (o : Option String) (s : AgentState) :
    scout_process adapters o s = { s with papers := [] } := by
  unfold scout_process
  rw [foldl_adapters_all_error adapters h []]
  show ({ s with papers := apply_filters (rank_papers (deduplicate_papers []) o) s.query } : AgentState) = _
  rw [show deduplicate_papers [] = [] from rfl]
  rw [show rank_papers [] o = [] from rfl]
  rw [apply_filters_nil]

/-- Claim C5, counterexample.  A run in which every source adapter
raises leaves the error list of the state empty: the failures are only
written to the diagnostic log, so the claimed non-empty entry in the run
state error log does not exist. -/
theorem C5_counterexample :
    (literature_search_node fixFailAdapters none fixState0).papers = []
    ∧ (literature_search_node fixFailAdapters none fixState0).errors = [] := by
  exact ⟨by decide, by decide⟩

/-- Claim C5, amended.  When every configured source adapter fails, the
retrieval stage returns an empty candidate list without raising, leaves
the run state error list exactly as it was (failures are recorded only
in the diagnostic log as warnings), marks the retrieval step complete,
and the run proceeds into the document analysis stage. -/
theorem C5_amended_fault_tolerance :
    ∀ (adapters : List (Except String (List Paper))),
      (∀ r ∈ adapters, ∃ e, r = Except.error e) →
    ∀ (o : Option String) (s : AgentState),
      (literature_search_node adapters o s).papers = []
      ∧ (literature_search_node adapters o s).errors = s.errors
      ∧ (literature_search_node adapters o s).current_step = "literature_search_complete"
      ∧ ∀ f, (document_analysis_node f (literature_search_node adapters o s)).current_step
          = "document_analysis_complete" := by
  intro adapters h o s
  have hlit : literature_search_node adapters o s
      = { s with papers := [], current_step := "literature_search_complete" } := by
    unfold literature_search_node
    rw [scout_process_all_error adapters h o s]
  rw [hlit]
  exact ⟨rfl, rfl, rfl, fun f => rfl⟩

/-- Witness for the amended C5 at the concrete all failing adapter
list. -/
theorem C5_amended_fault_tolerance_witness :
    (literature_search_node fixFailAdapters none fixState0).errors = fixState0.errors
    ∧ (literature_search_node fixFailAdapters none fixState0).current_step
        = "literature_search_complete"
    ∧ (document_analysis_node fixAnalyze
        (literature_search_node fixFailAdapters none fixState0)).current_step
        = "document_analysis_complete" := by
  have h : ∀ r ∈ fixFailAdapters, ∃ e, r = Except.error e := by
    intro r hr
    simp only [fixFailAdapters, List.mem_cons, List.not_mem_nil, or_false] at hr
    rcases hr with rfl | rfl | rfl | rfl | rfl <;> exact ⟨_, rfl⟩
  obtain ⟨_, h2, h3, h4⟩ := C5_amended_fault_tolerance fixFailAdapters h none fixState0
  exact ⟨h2, h3, h4 fixAnalyze⟩

/-- Claim C1.  The retrieval stage commits its ranked bounded output to
the papers attribute of the state, but the analysis node overwrites that
attribute from the literature results field, which retrieval never
writes: on a run started from a state containing only the query, the
analysis stage consumes the empty list even though retrieval committed a
non empty one.  The comment in the analysis node and the declared
literature results field of the state record show the intent the code
misses. -/
theorem C1_handoff_code_bug :
    (literature_search_node [Except.ok [fixGood]] none fixState0).papers ≠ []
    ∧ (document_analysis_node fixAnalyze
        (literature_search_node [Except.ok [fixGood]] none fixState0)).papers = []
    ∧ (document_analysis_node fixAnalyze
        (literature_search_node [Except.ok [fixGood]] none fixState0)).analyzed_documents = [] := by
  exact ⟨by decide, by decide, by decide⟩

end PERAgent
